import Mathlib

/-!
Shallow embedding of the snake-body module (src/src/snake.rs) and proofs of
the specified properties.  The Rust structure Snake holds a heading, a list
of body blocks (front is the head, back is the tail) and an optional record
of the most recently removed tail block.  Fallible operations (those that
call unwrap in the source) are embedded as Option-returning functions where
none models a panic.
-/

inductive Direction : Type where
  | Up : Direction
  | Down : Direction
  | Left : Direction
  | Right : Direction
deriving DecidableEq

def Direction.opposite : Direction → Direction
  | Direction.Up => Direction.Down
  | Direction.Down => Direction.Up
  | Direction.Left => Direction.Right
  | Direction.Right => Direction.Left

structure Block : Type where
  x : Int
  y : Int
deriving DecidableEq

structure Snake : Type where
  direction : Direction
  body : List Block
  tail : Option Block
deriving DecidableEq

def Snake.new (x y : Int) : Snake :=
  { direction := Direction.Right
    body := [{ x := x + 2, y := y }, { x := x + 1, y := y }, { x := x, y := y }]
    tail := none }

def Snake.head_position (s : Snake) : Option (Int × Int) :=
  match s.body with
  | [] => none
  | head_block :: _ => some (head_block.x, head_block.y)

def Snake.move_forward (s : Snake) (dir : Option Direction) : Option Snake :=
  let direction : Direction :=
    match dir with
    | some d => d
    | none => s.direction
  match s.body with
  | [] => none
  | head :: _ =>
    let new_block : Block :=
      match direction with
      | Direction.Up => { x := head.x, y := head.y - 1 }
      | Direction.Down => { x := head.x, y := head.y + 1 }
      | Direction.Left => { x := head.x - 1, y := head.y }
      | Direction.Right => { x := head.x + 1, y := head.y }
    let new_body : List Block := new_block :: s.body
    some { direction := direction, body := new_body.dropLast, tail := new_body.getLast? }

def Snake.head_direction (s : Snake) : Direction :=
  s.direction

def Snake.next_head (s : Snake) (dir : Option Direction) : Option (Int × Int) :=
  match s.head_position with
  | none => none
  | some (head_x, head_y) =>
    let moving_dir : Direction :=
      match dir with
      | some d => d
      | none => s.direction
    some (match moving_dir with
      | Direction.Up => (head_x, head_y - 1)
      | Direction.Down => (head_x, head_y + 1)
      | Direction.Left => (head_x - 1, head_y)
      | Direction.Right => (head_x + 1, head_y))

def Snake.restore_tail (s : Snake) : Option Snake :=
  match s.tail with
  | none => none
  | some blk => some { s with body := s.body ++ [blk] }

/-- The for-loop of overlap_tail: checks blocks in order, counting with ch,
    breaking once the counter reaches len - 1 (len is the full body length). -/
def overlapLoop (x y : Int) : List Block → Nat → Nat → Bool
  | [], _, _ => false
  | block :: rest, ch, len =>
    if x == block.x && y == block.y then true
    else if ch + 1 == len - 1 then false
    else overlapLoop x y rest (ch + 1) len

def Snake.overlap_tail (s : Snake) (x y : Int) : Bool :=
  overlapLoop x y s.body 0 s.body.length

/-- One unit offset of a block in a direction, as enumerated by the spec:
    Up means y - 1, Down means y + 1, Left means x - 1, Right means x + 1. -/
def shiftBlock (d : Direction) (b : Block) : Block :=
  match d with
  | Direction.Up => { x := b.x, y := b.y - 1 }
  | Direction.Down => { x := b.x, y := b.y + 1 }
  | Direction.Left => { x := b.x - 1, y := b.y }
  | Direction.Right => { x := b.x + 1, y := b.y }

/-- The two mutating operations a caller can issue, for reachability. -/
inductive Op : Type where
  | move : Option Direction → Op
  | restore : Op
deriving DecidableEq

def Snake.exec (s : Snake) : Op → Option Snake
  | Op.move d => s.move_forward d
  | Op.restore => s.restore_tail

def Snake.execTrace : Snake → List Op → Option Snake
  | s, [] => some s
  | s, op :: ops => (s.exec op).bind (fun s2 => s2.execTrace ops)

-- Characterization lemmas for the operations.

lemma move_forward_some (s : Snake) (dir : Option Direction) (b : Block) (rest : List Block)
    (hb : s.body = b :: rest) :
    s.move_forward dir = some { direction := dir.getD s.direction
                                body := (shiftBlock (dir.getD s.direction) b :: b :: rest).dropLast
                                tail := (shiftBlock (dir.getD s.direction) b :: b :: rest).getLast? } := by
  cases dir with
  | none =>
    cases hd : s.direction <;>
      simp [Snake.move_forward, hb, hd, shiftBlock, Option.getD]
  | some d =>
    cases d <;> simp [Snake.move_forward, hb, shiftBlock, Option.getD]

lemma move_forward_none_iff (s : Snake) (dir : Option Direction) :
    s.move_forward dir = none ↔ s.body = [] := by
  constructor
  · intro h
    cases hb : s.body with
    | nil => rfl
    | cons b rest =>
      rw [move_forward_some s dir b rest hb] at h
      exact absurd h (by simp)
  · intro h
    cases dir with
    | none => simp [Snake.move_forward, h]
    | some d => simp [Snake.move_forward, h]

lemma head_position_none_iff (s : Snake) :
    s.head_position = none ↔ s.body = [] := by
  cases hb : s.body <;> simp [Snake.head_position, hb]

lemma head_position_cons (s : Snake) (b : Block) (rest : List Block) (hb : s.body = b :: rest) :
    s.head_position = some (b.x, b.y) := by
  simp [Snake.head_position, hb]

lemma next_head_some (s : Snake) (dir : Option Direction) (b : Block) (rest : List Block)
    (hb : s.body = b :: rest) :
    s.next_head dir = some ((shiftBlock (dir.getD s.direction) b).x,
      (shiftBlock (dir.getD s.direction) b).y) := by
  cases dir with
  | none =>
    cases hd : s.direction <;>
      simp [Snake.next_head, head_position_cons s b rest hb, hd, shiftBlock, Option.getD]
  | some d =>
    cases d <;>
      simp [Snake.next_head, head_position_cons s b rest hb, shiftBlock, Option.getD]

lemma next_head_none_iff (s : Snake) (dir : Option Direction) :
    s.next_head dir = none ↔ s.body = [] := by
  cases hb : s.body with
  | nil => simp [Snake.next_head, Snake.head_position, hb]
  | cons b rest =>
    rw [next_head_some s dir b rest hb]
    simp [hb]

lemma restore_tail_none_iff (s : Snake) :
    s.restore_tail = none ↔ s.tail = none := by
  cases ht : s.tail <;> simp [Snake.restore_tail, ht]

lemma restore_tail_some (s : Snake) (blk : Block) (ht : s.tail = some blk) :
    s.restore_tail = some { s with body := s.body ++ [blk] } := by
  simp [Snake.restore_tail, ht]

lemma move_forward_length (s s' : Snake) (dir : Option Direction)
    (h : s.move_forward dir = some s') : s'.body.length = s.body.length := by
  cases hb : s.body with
  | nil => rw [(move_forward_none_iff s dir).mpr hb] at h; exact absurd h (by simp)
  | cons b rest =>
    rw [move_forward_some s dir b rest hb] at h
    have h2 := Option.some.inj h
    rw [← h2]
    simp [List.dropLast_cons₂]

lemma move_forward_tail_some (s s' : Snake) (dir : Option Direction)
    (h : s.move_forward dir = some s') : s'.tail = s.body.getLast? := by
  cases hb : s.body with
  | nil => rw [(move_forward_none_iff s dir).mpr hb] at h; exact absurd h (by simp)
  | cons b rest =>
    rw [move_forward_some s dir b rest hb] at h
    have h2 := Option.some.inj h
    rw [← h2]
    simp [List.getLast?_cons_cons]

-- Invariants along any trace of operations.

lemma execTrace_inv : ∀ (ops : List Op) (s₀ s : Snake), s₀.execTrace ops = some s →
    s₀.body.length ≤ s.body.length ∧
    (s.tail = none ↔ (s₀.tail = none ∧ ∀ d : Option Direction, Op.move d ∉ ops)) := by
  intro ops
  induction ops with
  | nil =>
    intro s₀ s h
    have hs : s₀ = s := Option.some.inj h
    subst hs
    simp
  | cons op ops ih =>
    intro s₀ s h
    simp only [Snake.execTrace, Option.bind_eq_some] at h
    obtain ⟨s₁, h₁, h₂⟩ := h
    have ihs := ih s₁ s h₂
    cases op with
    | move d =>
      simp only [Snake.exec] at h₁
      have hlen := move_forward_length s₀ s₁ d h₁
      have htl := move_forward_tail_some s₀ s₁ d h₁
      have hbne : s₀.body ≠ [] := by
        intro hb
        rw [(move_forward_none_iff s₀ d).mpr hb] at h₁
        exact absurd h₁ (by simp)
      have htl2 : s₁.tail ≠ none := by
        rw [htl]
        cases hb : s₀.body with
        | nil => exact absurd hb hbne
        | cons b rest => simp [hb, List.getLast?_eq_none_iff]
      refine ⟨by omega, ?_⟩
      constructor
      · intro hnone
        exact absurd ((ihs.2.mp hnone).1) htl2
      · intro ⟨_, hno⟩
        exact absurd (by simp : Op.move d ∈ Op.move d :: ops) (hno d)
    | restore =>
      simp only [Snake.exec] at h₁
      cases ht : s₀.tail with
      | none =>
        rw [(restore_tail_none_iff s₀).mpr ht] at h₁
        exact absurd h₁ (by simp)
      | some blk =>
        have h₁e : s₁ = { s₀ with body := s₀.body ++ [blk] } := by
          have hr := restore_tail_some s₀ blk ht
          rw [hr] at h₁
          exact (Option.some.inj h₁).symm
        have hlen : s₁.body.length = s₀.body.length + 1 := by rw [h₁e]; simp
        have htl : s₁.tail = some blk := by rw [h₁e]; exact ht
        refine ⟨by omega, ?_⟩
        constructor
        · intro hnone
          have hc := (ihs.2.mp hnone).1
          rw [htl] at hc
          exact absurd hc (by simp)
        · intro hpair
          exact absurd hpair.1 (by simp)

-- Characterization of the overlap_tail loop.

lemma overlapLoop_take (x y : Int) :
    ∀ (blocks : List Block) (ch len : Nat), ch + blocks.length = len → ch + 1 < len →
    overlapLoop x y blocks ch len =
      (blocks.take (len - 1 - ch)).any (fun b => x == b.x && y == b.y) := by
  intro blocks
  induction blocks with
  | nil =>
    intro ch len h1 h2
    simp at h1
    omega
  | cons b rest ih =>
    intro ch len h1 h2
    have htake : len - 1 - ch = (len - 2 - ch) + 1 := by omega
    by_cases hm : (x == b.x && y == b.y) = true
    · simp [overlapLoop, hm, htake]
    · by_cases hbreak : ch + 1 = len - 1
      · have h0 : len - 2 - ch = 0 := by omega
        have hcond : (ch + 1 == len - 1) = true := by simp [hbreak]
        simp [overlapLoop, hm, hcond, htake, h0]
      · have hb2 : ch + 1 + rest.length = len := by
          simp at h1
          omega
        have hlt : ch + 1 + 1 < len := by omega
        have hidx : len - 1 - (ch + 1) = len - 2 - ch := by omega
        have hrec := ih (ch + 1) len hb2 hlt
        rw [hidx] at hrec
        have hcond : (ch + 1 == len - 1) = false := by simp [hbreak]
        simp [overlapLoop, hm, hcond, htake, hrec]

lemma overlap_tail_eq_any (s : Snake) (x y : Int) (h2 : 2 ≤ s.body.length) :
    s.overlap_tail x y = s.body.dropLast.any (fun b => x == b.x && y == b.y) := by
  have h := overlapLoop_take x y s.body 0 s.body.length (by omega) (by omega)
  rw [Snake.overlap_tail, h, List.dropLast_eq_take]
  simp

-- Claim theorems.

/-- Claim C10: the function Direction.opposite is an involution: applying it
    twice to any of the four directions gives back the same direction. -/
theorem opposite_involution : ∀ d : Direction, d.opposite.opposite = d := by
  intro d
  cases d <;> rfl

/-- Claim C9: Snake.new x y builds the body from the three cells
    (x+2, y), (x+1, y), (x, y) in that order with (x+2, y) as the head,
    heading Right, and no remembered removed tail; in particular new 2 2 has
    length 3, head (4, 2) and heading Right. -/
theorem new_snake_spec :
    (∀ x y : Int, (Snake.new x y).body =
        [{ x := x + 2, y := y }, { x := x + 1, y := y }, { x := x, y := y }] ∧
      (Snake.new x y).head_position = some (x + 2, y) ∧
      (Snake.new x y).direction = Direction.Right ∧
      (Snake.new x y).tail = none) ∧
    (Snake.new 2 2).body.length = 3 ∧
    (Snake.new 2 2).head_position = some (4, 2) ∧
    (Snake.new 2 2).direction = Direction.Right := by
  exact ⟨fun x y => ⟨rfl, rfl, rfl, rfl⟩, rfl, by decide, rfl⟩

def snakeLen1 : Snake :=
  { direction := Direction.Right
    body := [{ x := 0, y := 0 }]
    tail := none }

/-- Claim C1 counterexample: a snake whose body has exactly one cell, at
    (0, 0).  Calling overlap_tail 0 0 on it returns true, not false: the
    loop tests the single cell before the break-counter check runs, so one
    cell is checked rather than zero. -/
theorem overlap_tail_single_cell_cex :
    snakeLen1.body.length = 1 ∧ snakeLen1.overlap_tail 0 0 = true := by
  exact ⟨rfl, by decide⟩

/-- Claim C1 (amended): for a SnakeBody whose body has exactly 1 cell,
    overlap_tail x y returns true exactly when (x, y) equals that single
    cell; it checks one cell, not zero. -/
theorem overlap_tail_single_cell_checks_head (s : Snake) (b : Block) (x y : Int)
    (hb : s.body = [b]) :
    s.overlap_tail x y = true ↔ (x = b.x ∧ y = b.y) := by
  simp [Snake.overlap_tail, hb, overlapLoop]

/-- Witness for the amended claim C1 at the concrete length-1 snake. -/
theorem overlap_tail_single_cell_checks_head_witness :
    snakeLen1.overlap_tail 0 0 = true ↔ ((0 : Int) = Block.x { x := 0, y := 0 } ∧
      (0 : Int) = Block.y { x := 0, y := 0 }) :=
  overlap_tail_single_cell_checks_head snakeLen1 { x := 0, y := 0 } 0 0 rfl

/-- Claim C2: for a body of length at least 2, overlap_tail x y holds
    exactly when (x, y) is the coordinate pair of some body cell other than
    the last cell of the sequence. -/
theorem overlap_tail_iff_mem_dropLast (s : Snake) (x y : Int) (h2 : 2 ≤ s.body.length) :
    s.overlap_tail x y = true ↔ ∃ b ∈ s.body.dropLast, b.x = x ∧ b.y = y := by
  rw [overlap_tail_eq_any s x y h2]
  simp only [List.any_eq_true, Bool.and_eq_true, beq_iff_eq]
  constructor
  · intro hex
    obtain ⟨b, hmem, hx, hy⟩ := hex
    exact ⟨b, hmem, hx.symm, hy.symm⟩
  · intro hex
    obtain ⟨b, hmem, hx, hy⟩ := hex
    exact ⟨b, hmem, hx.symm, hy.symm⟩

/-- Witness for claim C2 at the initial snake and the coordinates of its
    middle cell. -/
theorem overlap_tail_iff_mem_dropLast_witness :
    (Snake.new 2 2).overlap_tail 3 2 = true ↔
      ∃ b ∈ (Snake.new 2 2).body.dropLast, b.x = 3 ∧ b.y = 2 :=
  overlap_tail_iff_mem_dropLast (Snake.new 2 2) 3 2 (by decide)

/-- Claim C3: for every state with a non-empty body and every optional
    direction, move_forward succeeds and the head position of the resulting
    state equals the value next_head returned on the state before the call. -/
theorem advance_next_head_round_trip (s : Snake) (dir : Option Direction) (h : s.body ≠ []) :
    ∃ s', s.move_forward dir = some s' ∧ s'.head_position = s.next_head dir := by
  cases hb : s.body with
  | nil => exact absurd hb h
  | cons b rest =>
    refine ⟨_, move_forward_some s dir b rest hb, ?_⟩
    rw [next_head_some s dir b rest hb]
    simp [Snake.head_position, List.dropLast_cons₂]

/-- Witness for claim C3 at the initial snake with no direction request. -/
theorem advance_next_head_round_trip_witness :
    ∃ s', (Snake.new 2 2).move_forward none = some s' ∧
      s'.head_position = (Snake.new 2 2).next_head none :=
  advance_next_head_round_trip (Snake.new 2 2) none (by decide)

/-- Claim C4: move_forward leaves the body length unchanged, restore_tail
    adds exactly one cell, and hence every state reachable from Snake.new by
    any sequence of operations has body length at least 1 (length starts at
    3 and never drops). -/
theorem body_length_invariant :
    (∀ (s s' : Snake) (dir : Option Direction), s.move_forward dir = some s' →
        s'.body.length = s.body.length) ∧
    (∀ (s s' : Snake), s.restore_tail = some s' →
        s'.body.length = s.body.length + 1) ∧
    (∀ (x y : Int) (ops : List Op) (s : Snake), (Snake.new x y).execTrace ops = some s →
        1 ≤ s.body.length) := by
  refine ⟨fun s s' dir h => move_forward_length s s' dir h, ?_, ?_⟩
  · intro s s' h
    cases ht : s.tail with
    | none => rw [(restore_tail_none_iff s).mpr ht] at h; exact absurd h (by simp)
    | some blk =>
      rw [restore_tail_some s blk ht] at h
      rw [← Option.some.inj h]
      simp
  · intro x y ops s h
    have hinv := (execTrace_inv ops (Snake.new x y) s h).1
    have h3 : (Snake.new x y).body.length = 3 := rfl
    omega

/-- Witness for claim C4: the empty trace from the initial snake. -/
theorem body_length_invariant_witness : 1 ≤ (Snake.new 0 0).body.length :=
  body_length_invariant.2.2 0 0 [] (Snake.new 0 0) rfl

/-- Claim C5: move_forward with some d sets the heading to d unconditionally
    (also when d is the opposite of the current heading, since no filtering
    happens inside the operation), and move_forward with none keeps the
    current heading. -/
theorem advance_sets_direction (s s' : Snake) :
    (∀ d : Direction, s.move_forward (some d) = some s' → s'.direction = d) ∧
    (s.move_forward none = some s' → s'.direction = s.direction) := by
  constructor
  · intro d h
    cases hb : s.body with
    | nil => rw [(move_forward_none_iff s (some d)).mpr hb] at h; exact absurd h (by simp)
    | cons b rest =>
      rw [move_forward_some s (some d) b rest hb] at h
      rw [← Option.some.inj h]
      simp [Option.getD]
  · intro h
    cases hb : s.body with
    | nil => rw [(move_forward_none_iff s none).mpr hb] at h; exact absurd h (by simp)
    | cons b rest =>
      rw [move_forward_some s none b rest hb] at h
      rw [← Option.some.inj h]
      simp [Option.getD]

def sC5 : Snake :=
  { direction := Direction.Left
    body := [{ x := 3, y := 2 }, { x := 4, y := 2 }, { x := 3, y := 2 }]
    tail := some { x := 2, y := 2 } }

/-- Witness for claim C5: a requested Left while heading Right (a direct
    reversal) is applied unconditionally. -/
theorem advance_sets_direction_witness : sC5.direction = Direction.Left :=
  (advance_sets_direction (Snake.new 2 2) sC5).1 Direction.Left (by decide)

/-- Claim C6: move_forward offsets the pre-call head one unit in the
    possibly updated heading, pushes the new cell to the front, drops the
    back cell, and stores that dropped cell as the remembered tail,
    regardless of any previously remembered value. -/
theorem advance_effect (s : Snake) (b : Block) (rest : List Block) (dir : Option Direction)
    (s' : Snake) (hb : s.body = b :: rest) (h : s.move_forward dir = some s') :
    s'.direction = dir.getD s.direction ∧
    s'.body = shiftBlock (dir.getD s.direction) b :: s.body.dropLast ∧
    s'.tail = s.body.getLast? := by
  rw [move_forward_some s dir b rest hb] at h
  rw [← Option.some.inj h]
  refine ⟨rfl, ?_, ?_⟩
  · rw [hb]
    simp [List.dropLast_cons₂]
  · rw [hb]
    simp [List.getLast?_cons_cons]

def sC6 : Snake :=
  { direction := Direction.Down
    body := [{ x := 4, y := 3 }, { x := 4, y := 2 }, { x := 3, y := 2 }]
    tail := some { x := 2, y := 2 } }

/-- Witness for claim C6 at the initial snake with a requested Down. -/
theorem advance_effect_witness :
    sC6.direction = (some Direction.Down).getD (Snake.new 2 2).direction ∧
    sC6.body = shiftBlock ((some Direction.Down).getD (Snake.new 2 2).direction)
        { x := 4, y := 2 } :: (Snake.new 2 2).body.dropLast ∧
    sC6.tail = (Snake.new 2 2).body.getLast? :=
  advance_effect (Snake.new 2 2) { x := 4, y := 2 }
    [{ x := 3, y := 2 }, { x := 2, y := 2 }] (some Direction.Down) sC6 rfl (by decide)

/-- Claim C7: immediately after a successful move_forward, restore_tail
    succeeds, grows the body by exactly one cell, and the newly appended
    back cell is the cell the move removed (the value remembered in the
    tail field, which is the last cell of the pre-move body). -/
theorem restore_tail_after_advance (s s₁ : Snake) (dir : Option Direction)
    (h : s.move_forward dir = some s₁) :
    ∃ (s₂ : Snake) (blk : Block), s₁.tail = some blk ∧ s.body.getLast? = some blk ∧
      s₁.restore_tail = some s₂ ∧ s₂.body = s₁.body ++ [blk] ∧
      s₂.body.length = s₁.body.length + 1 := by
  cases hb : s.body with
  | nil => rw [(move_forward_none_iff s dir).mpr hb] at h; exact absurd h (by simp)
  | cons b rest =>
    have htl := move_forward_tail_some s s₁ dir h
    rw [hb] at htl
    obtain ⟨blk, hblk⟩ : ∃ blk, (b :: rest).getLast? = some blk := by
      cases hg : (b :: rest).getLast? with
      | none => simp [List.getLast?_eq_none_iff] at hg
      | some blk => exact ⟨blk, rfl⟩
    have htb : s₁.tail = some blk := by rw [htl, hblk]
    refine ⟨_, blk, htb, hblk, restore_tail_some s₁ blk htb, ?_, ?_⟩
    · simp
    · simp

def sC7 : Snake :=
  { direction := Direction.Right
    body := [{ x := 5, y := 2 }, { x := 4, y := 2 }, { x := 3, y := 2 }]
    tail := some { x := 2, y := 2 } }

/-- Witness for claim C7: advancing the initial snake once with no request,
    then restoring the tail. -/
theorem restore_tail_after_advance_witness :
    ∃ (s₂ : Snake) (blk : Block), sC7.tail = some blk ∧
      (Snake.new 2 2).body.getLast? = some blk ∧
      sC7.restore_tail = some s₂ ∧ s₂.body = sC7.body ++ [blk] ∧
      s₂.body.length = sC7.body.length + 1 :=
  restore_tail_after_advance (Snake.new 2 2) sC7 none (by decide)

/-- Claim C8: restore_tail fails exactly when no removed tail is remembered,
    head_position fails exactly on an empty body, the other operations fail
    only through the empty-body condition, and along every trace of
    operations from Snake.new the body stays non-empty while the remembered
    tail is empty exactly as long as no move has occurred, so the failure
    branches are unreachable under the stated protocol. -/
theorem partial_ops_characterization :
    (∀ s : Snake, s.head_position = none ↔ s.body = []) ∧
    (∀ s : Snake, s.restore_tail = none ↔ s.tail = none) ∧
    (∀ (s : Snake) (dir : Option Direction), s.move_forward dir = none ↔ s.body = []) ∧
    (∀ (s : Snake) (dir : Option Direction), s.next_head dir = none ↔ s.body = []) ∧
    (∀ (x y : Int) (ops : List Op) (s : Snake), (Snake.new x y).execTrace ops = some s →
        s.body ≠ [] ∧ (s.tail = none ↔ ∀ d : Option Direction, Op.move d ∉ ops)) := by
  refine ⟨head_position_none_iff, restore_tail_none_iff, move_forward_none_iff,
    next_head_none_iff, ?_⟩
  intro x y ops s h
  have hinv := execTrace_inv ops (Snake.new x y) s h
  have h3 : (Snake.new x y).body.length = 3 := rfl
  constructor
  · intro hnil
    have h0 : s.body.length = 0 := by rw [hnil]; rfl
    have h1 := hinv.1
    omega
  · rw [hinv.2]
    simp [Snake.new]

def sC8 : Snake :=
  { direction := Direction.Right
    body := [{ x := 3, y := 0 }, { x := 2, y := 0 }, { x := 1, y := 0 }]
    tail := some { x := 0, y := 0 } }

/-- Witness for claim C8: the one-move trace from Snake.new 0 0. -/
theorem partial_ops_characterization_witness :
    sC8.body ≠ [] ∧ (sC8.tail = none ↔ ∀ d : Option Direction, Op.move d ∉ [Op.move none]) :=
  partial_ops_characterization.2.2.2.2 0 0 [Op.move none] sC8 (by decide)
